import Mathlib

/-!
Verification model of the blind threshold BLS FFI boundary layer
(`crates/threshold-bls-ffi/src/ffi.rs`).

The curve and pairing arithmetic, hash-to-curve, and the binary point codec
are external collaborators of the design (consumed as opaque capabilities),
so the model is parametric: the pairing groups are cyclic of prime order and
are modelled in the exponent by their scalar field `F`, and the fixed-width
codecs are a bundled capability (`Curve`) with the round-trip laws the codec
contract gives.  Pointers at the foreign boundary are modelled by `Option`
(`none` = NULL), byte buffers by `List Nat`, and every entry point returns an
outcome that separates a crash (dereference of NULL / a panic) from a boolean
return together with the final contents of its output parameters (`none` =
the output parameter was never written).
-/

namespace ThresholdFfi

/-- A byte buffer (the FFI `Buffer` view), one `Nat` per byte. -/
abbrev Bytes := List Nat

/-- An evaluation of a secret-shared polynomial: a share index together with a
value (a scalar for private shares, a group element in the exponent for
partial signatures).  Mirrors `Share { index, private }` / `Eval` of the
threshold scheme. -/
structure Eval (F : Type) where
  index : Nat
  value : F
deriving DecidableEq

/-- The out-of-scope curve capabilities the FFI layer consumes: hash-to-group
(in the exponent), and the fixed-width codecs for private keys, public keys,
group points (signatures and blinded messages) and partial signatures.  The
round-trip and width laws are the documented contract of the codec. -/
structure Curve (F : Type) where
  hashMsg : Bytes → F
  privLen : Nat
  pubLen : Nat
  sigLen : Nat
  psLen : Nat
  psLen_pos : 0 < psLen
  encPriv : F → Bytes
  decPriv : Bytes → Option F
  encPriv_len : ∀ x, (encPriv x).length = privLen
  decPriv_encPriv : ∀ x, decPriv (encPriv x) = some x
  encPub : F → Bytes
  decPub : Bytes → Option F
  encPub_len : ∀ x, (encPub x).length = pubLen
  decPub_encPub : ∀ x, decPub (encPub x) = some x
  encSig : F → Bytes
  decSig : Bytes → Option F
  encSig_len : ∀ x, (encSig x).length = sigLen
  decSig_encSig : ∀ x, decSig (encSig x) = some x
  encEv : Eval F → Bytes
  decEv : Bytes → Option (Eval F)
  encEv_len : ∀ e, (encEv e).length = psLen
  decEv_encEv : ∀ e, decEv (encEv e) = some e

section Model

variable {F : Type} [Field F] [DecidableEq F]

/-- From the source `from_slice` (ffi.rs:740-745): copies the first 32 bytes of
the slice into the RNG seed array; `&bytes[..32]` panics (`none`) when fewer
than 32 bytes are supplied. -/
def from_slice (bytes : Bytes) : Option Bytes :=
  if bytes.length < 32 then none else some (bytes.take 32)

/-- Modelled from the spec: `DeterministicRandomness` derives a reproducible
random stream from a 32-byte key (`get_rng`, a ChaCha stream cipher).  The
cipher itself is out of scope; the model keeps what the claims need: the
stream is a pure function of the 32-byte key, `k` indexes the draws. -/
def rngScalar (key : Bytes) (k : Nat) : F :=
  ((key.foldl (fun a b => a * 256 + b) 0 + k + 1 : Nat) : F)

/-- Evaluation of a coefficient list (constant term first) at `x`, Horner
form; the `Poly::eval` arithmetic of the threshold crate. -/
def polyEval (coeffs : List F) (x : F) : F :=
  coeffs.foldr (fun c acc => c + x * acc) 0

/-- Modelled from the spec: `Poly::new_from(t - 1, rng)` draws a random
polynomial of degree `t - 1`, i.e. `t` coefficients, from the seeded stream.
(For `t = 0` the source underflows `usize`; every claim assumes `t ≥ 1`.) -/
def polyFrom (key : Bytes) (t : Nat) : List F :=
  (List.range t).map (fun k => rngScalar key k)

/-- Modelled from the spec: the coefficientwise commitment `g^x` of a scalar.
The group is cyclic of prime order, so it is modelled in the exponent and the
commitment is the identity on discrete logs. -/
def gexp (x : F) : F := x

/-- The `Keys` helper struct returned by `threshold_keygen` (ffi.rs:717-723). -/
structure Keys (F : Type) where
  shares : List (Eval F)
  polynomial : List F
  threshold_public_key : F
  t : Nat
  n : Nat
deriving DecidableEq

/-- The `Keypair` helper struct returned by `keygen` (ffi.rs:728-733). -/
structure Keypair (F : Type) where
  private_key : F
  public_key : F
deriving DecidableEq

/-- Modelled from the spec: `SigScheme::keypair(rng)` draws a private scalar
from the stream and publishes `g^private`. -/
def keypairFrom (key : Bytes) : Keypair F :=
  let sk : F := rngScalar key 0
  ⟨sk, gexp sk⟩

/-- The body of `threshold_keygen` (ffi.rs:607-637) after the seed was read:
build the degree-`(t-1)` polynomial, evaluate it at indices `1..=n` (a share
stored at index `i` holds the evaluation at `i + 1`), commit coefficientwise,
and take the commitment's constant term as the threshold public key. -/
def keysFrom (n t : Nat) (key : Bytes) : Keys F :=
  let coeffs : List F := polyFrom key t
  let shares := (List.range n).map (fun i => Eval.mk i (polyEval coeffs ((i + 1 : Nat) : F)))
  let polynomial := coeffs.map gexp
  ⟨shares, polynomial, polynomial.headD 0, t, n⟩

/-- Modelled from the spec: `blind_msg` draws the blinding factor `r` from the
seeded stream and publishes the blinded message `r · H(m)` (in the exponent),
returning the token `r` and the encoded blinded point. -/
def blindMsg (C : Curve F) (msg : Bytes) (key : Bytes) : F × Bytes :=
  let r : F := rngScalar key 0
  (r, C.encSig (r * C.hashMsg msg))

/-- Modelled from the spec: `unblind_sig` removes the blinding factor,
multiplying by `r⁻¹`; it fails (`BlindingError`) when the blinded signature
cannot be algebraically reversed: undecodable bytes or a non-invertible
token. -/
def unblindSig (C : Curve F) (r : F) (bsig : Bytes) : Option Bytes :=
  if r = 0 then none
  else (C.decSig bsig).map (fun p => C.encSig (r⁻¹ * p))

/-- Modelled from the spec: `sign` is the deterministic signature `sk · H(m)`
over the message hash (in the exponent). -/
def signMsg (C : Curve F) (sk : F) (msg : Bytes) : Bytes :=
  C.encSig (sk * C.hashMsg msg)

/-- Modelled from the spec: `blind_sign` signs an already-blinded group point
directly, `sk · P`; fails when the point bytes do not decode. -/
def blindSign (C : Curve F) (sk : F) (bm : Bytes) : Option Bytes :=
  (C.decSig bm).map (fun p => C.encSig (sk * p))

/-- Modelled from the spec: `partial_sign` signs with one share; the output
carries the share's index next to the signed point. -/
def partSign (C : Curve F) (sh : Eval F) (msg : Bytes) : Bytes :=
  C.encEv ⟨sh.index, sh.value * C.hashMsg msg⟩

/-- Modelled from the spec: `sign_blind_partial` signs an already-blinded
point with one share; fails when the point bytes do not decode. -/
def partBlindSign (C : Curve F) (sh : Eval F) (bm : Bytes) : Option Bytes :=
  (C.decSig bm).map (fun p => C.encEv ⟨sh.index, sh.value * p⟩)

/-- Modelled from the spec: pairing-based verification, in the exponent: the
signature point must equal `pk · H(m)`; malformed signature bytes fail. -/
def verifySig (C : Curve F) (pk : F) (msg : Bytes) (sig : Bytes) : Bool :=
  match C.decSig sig with
  | none => false
  | some s => decide (s = pk * C.hashMsg msg)

/-- Modelled from the spec: `partial_verify` evaluates the public polynomial
at the partial signature's index to recover that party's public key, then
runs the standard verification there. -/
def partVerify (C : Curve F) (poly : List F) (msg : Bytes) (psig : Bytes) : Bool :=
  match C.decEv psig with
  | none => false
  | some e => decide (e.value = polyEval poly ((e.index + 1 : Nat) : F) * C.hashMsg msg)

/-- Modelled from the spec: the blind variant of `partial_verify`, checking a
partial signature over a blinded group point. -/
def partBlindVerify (C : Curve F) (poly : List F) (bm : Bytes) (psig : Bytes) : Bool :=
  match C.decEv psig, C.decSig bm with
  | some e, some p => decide (e.value = polyEval poly ((e.index + 1 : Nat) : F) * p)
  | _, _ => false

/-- Decode every element of a list, failing when any single decode fails —
the elementwise deserialization inside `aggregate`. -/
def optList (f : α → Option β) : List α → Option (List β)
  | [] => some []
  | a :: l =>
    match f a, optList f l with
    | some b, some bs => some (b :: bs)
    | _, _ => none

/-- Accumulator loop for `chunkExact`: `acc` is the reversed current chunk,
`k` the remaining capacity of that chunk. -/
def chunkGo (m : Nat) : List α → List α → Nat → List (List α)
  | [], acc, _ => if acc.isEmpty then [] else [acc.reverse]
  | a :: l, acc, 0 => acc.reverse :: chunkGo m l [a] (m - 1)
  | a :: l, acc, k + 1 => chunkGo m l (a :: acc) k

/-- `slice::chunks`: split into consecutive chunks of `m` elements, the last
chunk possibly shorter (ffi.rs:373-376 splits the flattened partial-signature
buffer this way).  `m = 0` panics in Rust; the codec's width is positive. -/
def chunkExact (m : Nat) (l : List α) : List (List α) :=
  chunkGo m l [] m

/-- The Lagrange basis weight at `x = 0` for node `i` of the node list `xs`:
`∏ j ≠ i, xs[j] / (xs[j] - xs[i])`.  (In a field `(0 : F)⁻¹ = 0`, so duplicate
nodes silently give a junk weight instead of an error — matching the spec's
description of aggregation with duplicate indices.) -/
def lagBasisAt0 (xs : List F) (i : Nat) : F :=
  ∏ j ∈ (Finset.range xs.length).erase i, (xs.getD j 0 * (xs.getD j 0 - xs.getD i 0)⁻¹)

/-- Lagrange interpolation at `x = 0` of a list of `(node, value)` points (the
values live in the exponent). -/
def recoverAt0 (pts : List (F × F)) : F :=
  ∑ i ∈ Finset.range pts.length, (pts.getD i (0, 0)).2 * lagBasisAt0 (pts.map Prod.fst) i

/-- Modelled from the spec: `SigScheme::aggregate(threshold, partials)` —
requires at least `threshold` partial signatures (`NotEnoughShares`
otherwise), deserializes each, and Lagrange-interpolates the first
`threshold` of them at `x = 0`, a share of index `i` standing for the
evaluation at `i + 1`.  It performs no validation beyond count and
decodability. -/
def aggregateSigs (C : Curve F) (t : Nat) (chunks : List Bytes) : Option Bytes :=
  if chunks.length < t then none
  else
    match optList C.decEv chunks with
    | none => none
    | some evals =>
      let pts := (evals.take t).map (fun e => (((e.index + 1 : Nat) : F), e.value))
      some (C.encSig (recoverAt0 pts))

/-- Outcome of a boolean-returning FFI entry point: a crash (NULL dereference
or panic), or a boolean return paired with the final contents of the output
parameters (`none` components were never written). -/
inductive FfiRes (ω : Type) where
  | crash : FfiRes ω
  | ret (success : Bool) (out : ω) : FfiRes ω
deriving DecidableEq

/-- Outcome of an FFI entry point that returns no boolean (`keygen`,
`threshold_keygen` return `()`): a crash, or completion with the value written
through the output pointer. -/
inductive UnitRes (α : Type) where
  | crash : UnitRes α
  | done (out : α) : UnitRes α
deriving DecidableEq

/-- `blind` (ffi.rs:44-71): NULL check on all four pointers first (returns
`false`, nothing written), then `get_rng` (panics on a short seed), then the
blinding; both outputs are written just before returning `true`. -/
def blind_ffi (C : Curve F) (message seed : Option Bytes) (bmOutNull bfOutNull : Bool) :
    FfiRes (Option Bytes × Option F) :=
  match message, seed, bmOutNull, bfOutNull with
  | some m, some s, false, false =>
    match from_slice s with
    | none => .crash
    | some key =>
      let rb := blindMsg C m key
      .ret true (some rb.2, some rb.1)
  | _, _, _, _ => .ret false (none, none)

/-- `unblind` (ffi.rs:87-108): NULL check first, unblind, `false` on a
`BlindingError`, output written only on success. -/
def unblind_ffi (C : Curve F) (bsig : Option Bytes) (bf : Option F) (outNull : Bool) :
    FfiRes (Option Bytes) :=
  match bsig, bf, outNull with
  | some b, some r, false =>
    match unblindSig C r b with
    | none => .ret false none
    | some s => .ret true (some s)
  | _, _, _ => .ret false none

/-- `verify` (ffi.rs:124-139): NULL check first, then the pairing check; no
output parameter. -/
def verify_ffi (C : Curve F) (pk : Option F) (msg sig : Option Bytes) : FfiRes Unit :=
  match pk, msg, sig with
  | some p, some m, some s => .ret (verifySig C p m s) ()
  | _, _, _ => .ret false ()

/-- `sign` (ffi.rs:154-175): NULL check first; the signature is written only
on the success path. -/
def sign_ffi (C : Curve F) (sk : Option F) (msg : Option Bytes) (sigOutNull : Bool) :
    FfiRes (Option Bytes) :=
  match sk, msg, sigOutNull with
  | some k, some m, false => .ret true (some (signMsg C k m))
  | _, _, _ => .ret false none

/-- `sign_blinded_message` (ffi.rs:186-207). -/
def sign_blinded_message_ffi (C : Curve F) (sk : Option F) (bm : Option Bytes)
    (sigOutNull : Bool) : FfiRes (Option Bytes) :=
  match sk, bm, sigOutNull with
  | some k, some m, false =>
    match blindSign C k m with
    | none => .ret false none
    | some s => .ret true (some s)
  | _, _, _ => .ret false none

/-- `partial_sign` (ffi.rs:219-239). -/
def partial_sign_ffi (C : Curve F) (share : Option (Eval F)) (msg : Option Bytes)
    (sigOutNull : Bool) : FfiRes (Option Bytes) :=
  match share, msg, sigOutNull with
  | some sh, some m, false => .ret true (some (partSign C sh m))
  | _, _, _ => .ret false none

/-- `partial_sign_blinded_message` (ffi.rs:251-271). -/
def partial_sign_blinded_message_ffi (C : Curve F) (share : Option (Eval F))
    (bm : Option Bytes) (sigOutNull : Bool) : FfiRes (Option Bytes) :=
  match share, bm, sigOutNull with
  | some sh, some m, false =>
    match partBlindSign C sh m with
    | none => .ret false none
    | some s => .ret true (some s)
  | _, _, _ => .ret false none

/-- `partial_verify` (ffi.rs:287-303): NULL check first; no output
parameter. -/
def partial_verify_ffi (C : Curve F) (poly : Option (List F)) (msg sig : Option Bytes) :
    FfiRes Unit :=
  match poly, msg, sig with
  | some p, some m, some s => .ret (partVerify C p m s) ()
  | _, _, _ => .ret false ()

/-- `partial_verify_blind_signature` (ffi.rs:315-331). -/
def partial_verify_blind_signature_ffi (C : Curve F) (poly : Option (List F))
    (bm sig : Option Bytes) : FfiRes Unit :=
  match poly, bm, sig with
  | some p, some m, some s => .ret (partBlindVerify C p m s) ()
  | _, _, _ => .ret false ()

/-- `combine` (ffi.rs:362-387): NULL check on the two buffers first, split the
flattened buffer into `PARTIAL_SIG_LENGTH` chunks, aggregate; `false` with
nothing written on any aggregation error. -/
def combine_ffi (C : Curve F) (t : Nat) (sigs : Option Bytes) (asigNull : Bool) :
    FfiRes (Option Bytes) :=
  match sigs, asigNull with
  | some buf, false =>
    match aggregateSigs C t (chunkExact C.psLen buf) with
    | none => .ret false none
    | some s => .ret true (some s)
  | _, _ => .ret false none

/-- `keygen` (ffi.rs:647-653): returns `()`, not a boolean; the seed pointer
is dereferenced with no NULL check (crash), `from_slice` panics on a short
seed (crash), and the keypair is written through the output pointer (crash
when that pointer is NULL). -/
def keygen_ffi (seed : Option Bytes) (outNull : Bool) : UnitRes (Keypair F) :=
  match seed with
  | none => .crash
  | some s =>
    match from_slice s with
    | none => .crash
    | some key => if outNull then .crash else .done (keypairFrom key)

/-- `threshold_keygen` (ffi.rs:607-637): returns `()`, not a boolean; no NULL
check on either pointer, panic on a short seed. -/
def threshold_keygen_ffi (n t : Nat) (seed : Option Bytes) (outNull : Bool) :
    UnitRes (Keys F) :=
  match seed with
  | none => .crash
  | some s =>
    match from_slice s with
    | none => .crash
    | some key => if outNull then .crash else .done (keysFrom n t key)

/-- `serialize` (ffi.rs:503-517) instantiated at private keys
(`serialize_privkey`, ffi.rs:469-474): the input pointer is dereferenced with
no NULL check; `bincode::serialize` of a key never fails; the bytes are
written through the output pointer (crash when NULL). -/
def serialize_privkey_ffi (C : Curve F) (pk : Option F) (outNull : Bool) :
    FfiRes (Option Bytes) :=
  match pk with
  | none => .crash
  | some x => if outNull then .crash else .ret true (some (C.encPriv x))

/-- `serialize_pubkey` (ffi.rs:453-458). -/
def serialize_pubkey_ffi (C : Curve F) (pk : Option F) (outNull : Bool) :
    FfiRes (Option Bytes) :=
  match pk with
  | none => .crash
  | some x => if outNull then .crash else .ret true (some (C.encPub x))

/-- `serialize_sig` (ffi.rs:485-487). -/
def serialize_sig_ffi (C : Curve F) (sg : Option F) (outNull : Bool) :
    FfiRes (Option Bytes) :=
  match sg with
  | none => .crash
  | some x => if outNull then .crash else .ret true (some (C.encSig x))

/-- `deserialize` (ffi.rs:489-501) at private keys (`deserialize_privkey`,
ffi.rs:424-429): `slice::from_raw_parts(in_buf, PRIVKEY_LEN)` dereferences
with no NULL check and reads exactly `PRIVKEY_LEN` bytes (undefined behaviour
— crash — on a shorter allocation); an undecodable buffer returns `false`
with nothing written; on success the boxed key is written out. -/
def deserialize_privkey_ffi (C : Curve F) (buf : Option Bytes) (outNull : Bool) :
    FfiRes (Option F) :=
  match buf with
  | none => .crash
  | some b =>
    if b.length < C.privLen then .crash
    else
      match C.decPriv (b.take C.privLen) with
      | none => .ret false none
      | some x => if outNull then .crash else .ret true (some x)

/-- `deserialize_pubkey` (ffi.rs:408-413). -/
def deserialize_pubkey_ffi (C : Curve F) (buf : Option Bytes) (outNull : Bool) :
    FfiRes (Option F) :=
  match buf with
  | none => .crash
  | some b =>
    if b.length < C.pubLen then .crash
    else
      match C.decPub (b.take C.pubLen) with
      | none => .ret false none
      | some x => if outNull then .crash else .ret true (some x)

/-- `deserialize_sig` (ffi.rs:440-442). -/
def deserialize_sig_ffi (C : Curve F) (buf : Option Bytes) (outNull : Bool) :
    FfiRes (Option F) :=
  match buf with
  | none => .crash
  | some b =>
    if b.length < C.sigLen then .crash
    else
      match C.decSig (b.take C.sigLen) with
      | none => .ret false none
      | some x => if outNull then .crash else .ret true (some x)

/-- Successful boolean return with a written buffer, as the test harness reads
it (`assert!(ret)` then `assume_init`). -/
def okOut : FfiRes (Option α) → Option α
  | .ret true (some a) => some a
  | _ => none

/-- Successful boolean return with both outputs written. -/
def okPair : FfiRes (Option α × Option β) → Option (α × β)
  | .ret true (some a, some b) => some (a, b)
  | _ => none

/-- Completion of a unit-returning entry point. -/
def doneOut : UnitRes α → Option α
  | .done a => some a
  | .crash => none

/-- The boolean a verification entry point returned. -/
def boolOut : FfiRes Unit → Option Bool
  | .ret b _ => some b
  | .crash => none

/-- The blind threshold pipeline of the test `threshold_verify_ffi`
(ffi.rs:763-856), `should_blind = true`, over the `t` shares listed in
`idxs`: threshold keygen, blind, partially sign the blinded message with each
chosen share, concatenate, combine, unblind, verify against the threshold
public key. -/
def pipeBlind (C : Curve F) (n t : Nat) (seed userSeed msg : Bytes) (idxs : List Nat) :
    Option Bool :=
  (doneOut (threshold_keygen_ffi n t (some seed) false)).bind fun K =>
  (okPair (blind_ffi C (some msg) (some userSeed) false false)).bind fun br =>
  (optList (fun i =>
      okOut (partial_sign_blinded_message_ffi C (some (K.shares.getD i ⟨0, 0⟩))
        (some br.1) false)) idxs).bind fun psigs =>
  (okOut (combine_ffi C t (some psigs.flatten) false)).bind fun asig =>
  (okOut (unblind_ffi C (some asig) (some br.2) false)).bind fun usig =>
  boolOut (verify_ffi C (some K.threshold_public_key) (some msg) (some usig))

/-- The plain (non-blind) threshold pipeline of the same test,
`should_blind = false`. -/
def pipePlain (C : Curve F) (n t : Nat) (seed msg : Bytes) (idxs : List Nat) :
    Option Bool :=
  (doneOut (threshold_keygen_ffi n t (some seed) false)).bind fun K =>
  (optList (fun i =>
      okOut (partial_sign_ffi C (some (K.shares.getD i ⟨0, 0⟩)) (some msg) false))
    idxs).bind fun psigs =>
  (okOut (combine_ffi C t (some psigs.flatten) false)).bind fun asig =>
  boolOut (verify_ffi C (some K.threshold_public_key) (some msg) (some asig))

end Model

instance : Fact (Nat.Prime 101) := ⟨by norm_num⟩

/-- A concrete instance of the out-of-scope curve capability, over the field
`ZMod 101`: single-byte scalar and point codecs, two-byte partial-signature
codec, and a small polynomial-evaluation hash. -/
def mCurve : Curve (ZMod 101) where
  hashMsg m := ((m.foldl (fun a b => a * 33 + b) 7 : Nat) : ZMod 101)
  privLen := 1
  pubLen := 1
  sigLen := 1
  psLen := 2
  psLen_pos := by decide
  encPriv x := [x.val]
  decPriv b := match b with
    | [a] => some ((a : Nat) : ZMod 101)
    | _ => none
  encPriv_len := fun _ => rfl
  decPriv_encPriv := fun x => congrArg some (ZMod.natCast_rightInverse x)
  encPub x := [x.val]
  decPub b := match b with
    | [a] => some ((a : Nat) : ZMod 101)
    | _ => none
  encPub_len := fun _ => rfl
  decPub_encPub := fun x => congrArg some (ZMod.natCast_rightInverse x)
  encSig x := [x.val]
  decSig b := match b with
    | [a] => some ((a : Nat) : ZMod 101)
    | _ => none
  encSig_len := fun _ => rfl
  decSig_encSig := fun x => congrArg some (ZMod.natCast_rightInverse x)
  encEv e := [e.index, e.value.val]
  decEv b := match b with
    | [i, a] => some ⟨i, ((a : Nat) : ZMod 101)⟩
    | _ => none
  encEv_len := fun _ => rfl
  decEv_encEv := fun e => by
    simp only []
    exact congrArg some (congrArg (Eval.mk e.index) (ZMod.natCast_rightInverse e.value))

/-- The concrete scenario's keygen seed: 59 repetitions of the byte `'a'`. -/
def scenarioSeed : Bytes := List.replicate 59 97

/-- The concrete scenario's blinding seed: 59 repetitions of the byte `'b'`. -/
def scenarioUserSeed : Bytes := List.replicate 59 98

/-- The concrete scenario's message. -/
def scenarioMsg : Bytes := [1, 2, 3, 4, 6]

/-- The keys the concrete scenario's `threshold_keygen(5, 3, seed)` builds. -/
def scenarioKeys : Keys (ZMod 101) := keysFrom 5 3 (scenarioSeed.take 32)

/-- A genuine partial signature of the scenario message under share 0. -/
def scenarioPsig0 : Bytes := partSign mCurve (scenarioKeys.shares.getD 0 ⟨0, 0⟩) scenarioMsg

/-- A genuine partial signature of the scenario message under share 1. -/
def scenarioPsig1 : Bytes := partSign mCurve (scenarioKeys.shares.getD 1 ⟨0, 0⟩) scenarioMsg

/-- A flattened buffer of three partial signatures in which the share index 0
occurs twice: the duplicate-index input for the aggregation claim. -/
def scenarioDupBuf : Bytes := scenarioPsig0 ++ scenarioPsig0 ++ scenarioPsig1

section Lemmas

variable {F : Type} [Field F] [DecidableEq F]

theorem from_slice_of_le {s : Bytes} (h : 32 ≤ s.length) :
    from_slice s = some (s.take 32) :=
  if_neg (by omega)

theorem polyEval_zero (l : List F) : polyEval l 0 = l.headD 0 := by
  cases l with
  | nil => rfl
  | cons c l => simp [polyEval]

theorem polyFrom_length (key : Bytes) (t : Nat) :
    (polyFrom (F := F) key t).length = t := by
  simp [polyFrom]

theorem keysFrom_shares_getD {n : Nat} {i : Nat} (t : Nat) (key : Bytes) (h : i < n) :
    ((keysFrom (F := F) n t key).shares).getD i ⟨0, 0⟩ =
      ⟨i, polyEval (polyFrom key t) ((i + 1 : Nat) : F)⟩ := by
  simp [keysFrom, List.getD, List.getElem?_map, List.getElem?_range h]

theorem keysFrom_tpk (n t : Nat) (key : Bytes) :
    (keysFrom (F := F) n t key).threshold_public_key = polyEval (polyFrom key t) 0 := by
  have hmap : (polyFrom (F := F) key t).map gexp = polyFrom key t := List.map_id' _
  simp [keysFrom, hmap, polyEval_zero]

theorem threshold_keygen_done {seed : Bytes} (n t : Nat) (h : 32 ≤ seed.length) :
    threshold_keygen_ffi (F := F) n t (some seed) false =
      .done (keysFrom n t (seed.take 32)) := by
  simp [threshold_keygen_ffi, from_slice_of_le h]

theorem keygen_done {seed : Bytes} (h : 32 ≤ seed.length) :
    keygen_ffi (F := F) (some seed) false = .done (keypairFrom (seed.take 32)) := by
  simp [keygen_ffi, from_slice_of_le h]

theorem keygen_crash_iff (seed : Bytes) :
    keygen_ffi (F := F) (some seed) false = .crash ↔ seed.length < 32 := by
  by_cases h : seed.length < 32
  · simp [keygen_ffi, from_slice, h]
  · simp [keygen_ffi, from_slice, h]

theorem blind_ok (C : Curve F) {us : Bytes} (m : Bytes) (h : 32 ≤ us.length) :
    blind_ffi C (some m) (some us) false false =
      .ret true (some (C.encSig ((rngScalar (us.take 32) 0 : F) * C.hashMsg m)),
        some (rngScalar (us.take 32) 0 : F)) := by
  simp [blind_ffi, from_slice_of_le h, blindMsg]

theorem partial_sign_blinded_enc (C : Curve F) (sh : Eval F) (p : F) :
    partial_sign_blinded_message_ffi C (some sh) (some (C.encSig p)) false =
      .ret true (some (C.encEv ⟨sh.index, sh.value * p⟩)) := by
  simp [partial_sign_blinded_message_ffi, partBlindSign, C.decSig_encSig]

theorem partial_sign_enc (C : Curve F) (sh : Eval F) (m : Bytes) :
    partial_sign_ffi C (some sh) (some m) false =
      .ret true (some (C.encEv ⟨sh.index, sh.value * C.hashMsg m⟩)) := by
  simp [partial_sign_ffi, partSign]

theorem unblind_enc (C : Curve F) {r : F} (x : F) (hr : r ≠ 0) :
    unblind_ffi C (some (C.encSig x)) (some r) false =
      .ret true (some (C.encSig (r⁻¹ * x))) := by
  simp [unblind_ffi, unblindSig, hr, C.decSig_encSig]

theorem verify_enc (C : Curve F) (pk : F) (m : Bytes) (x : F) :
    verify_ffi C (some pk) (some m) (some (C.encSig x)) =
      .ret (decide (x = pk * C.hashMsg m)) () := by
  simp [verify_ffi, verifySig, C.decSig_encSig]

theorem optList_map {α β : Type} (f : α → Option β) (g : α → β) :
    ∀ l : List α, (∀ a ∈ l, f a = some (g a)) → optList f l = some (l.map g)
  | [], _ => rfl
  | a :: l, h => by
    have ha := h a (by simp)
    have hl := optList_map f g l (fun b hb => h b (by simp [hb]))
    simp [optList, ha, hl]

theorem chunkGo_append {α : Type} (m : Nat) :
    ∀ (b l acc : List α), chunkGo m (b ++ l) acc b.length = chunkGo m l (b.reverse ++ acc) 0
  | [], l, acc => by simp [chunkGo]
  | a :: b, l, acc => by
    rw [List.cons_append, List.length_cons, chunkGo, chunkGo_append m b l (a :: acc)]
    simp

theorem chunkExact_flatten {α : Type} {m : Nat} (hm : 0 < m) :
    ∀ bs : List (List α), (∀ b ∈ bs, b.length = m) → chunkExact m bs.flatten = bs
  | [], _ => by simp [chunkExact, chunkGo]
  | b :: bs, h => by
    have hb : b.length = m := h b (by simp)
    have hbs := chunkExact_flatten hm bs (fun c hc => h c (by simp [hc]))
    have hbne : ¬ b.reverse.isEmpty := by
      rcases b with _ | ⟨x, b'⟩
      · rw [List.length_nil] at hb
        omega
      · simp
    have happ := chunkGo_append m b bs.flatten []
    rw [hb, List.append_nil] at happ
    rw [List.flatten_cons, chunkExact, happ]
    rcases hflat : bs.flatten with _ | ⟨a, l⟩
    · have hbsnil : bs = [] := by
        rcases bs with _ | ⟨c, bs'⟩
        · rfl
        · have hc : c.length = m := h c (by simp)
          rcases c with _ | ⟨y, c'⟩
          · rw [List.length_nil] at hc
            omega
          · simp at hflat
      rw [chunkGo, if_neg hbne, List.reverse_reverse, hbsnil]
    · rw [hflat] at hbs
      rcases m with _ | m'
      · omega
      · rw [chunkGo, List.reverse_reverse, Nat.add_sub_cancel]
        have hrest : chunkGo (m' + 1) l [a] m' = chunkExact (m' + 1) (a :: l) := by
          rw [chunkExact, chunkGo]
        rw [hrest, hbs]

theorem optList_enc {α β : Type} (f : β → Option α) (g : α → β) :
    ∀ l : List α, (∀ a ∈ l, f (g a) = some a) → optList f (l.map g) = some l
  | [], _ => rfl
  | a :: l, h => by
    have hl := optList_enc f g l (fun b hb => h b (by simp [hb]))
    simp [optList, h a (by simp), hl]

theorem exists_poly (l : List F) :
    ∃ P : Polynomial F, P.degree < (l.length : WithBot Nat) ∧ ∀ x, P.eval x = polyEval l x := by
  induction l with
  | nil =>
    refine ⟨0, ?_, fun x => by simp [polyEval]⟩
    simpa using WithBot.bot_lt_coe (0 : Nat)
  | cons c l ih =>
    obtain ⟨P, hdeg, heval⟩ := ih
    refine ⟨Polynomial.C c + Polynomial.X * P, ?_, fun x => by
      simp [polyEval, Polynomial.eval_add, Polynomial.eval_mul, heval]⟩
    refine lt_of_le_of_lt (Polynomial.degree_add_le _ _) (max_lt ?_ ?_)
    · exact lt_of_le_of_lt Polynomial.degree_C_le (by exact_mod_cast Nat.succ_pos l.length)
    · refine lt_of_le_of_lt (Polynomial.degree_mul_le _ _) ?_
      rw [Polynomial.degree_X]
      have hcast : ((l.length + 1 : Nat) : WithBot Nat) = 1 + (l.length : WithBot Nat) := by
        push_cast
        ring
      rw [List.length_cons, hcast]
      exact WithBot.add_lt_add_left (by simp) hdeg

theorem eval_basis_at_zero (s : Finset Nat) (v : Nat → F) (i : Nat) :
    (Lagrange.basis s v i).eval 0 = ∏ j ∈ s.erase i, (v j * (v j - v i)⁻¹) := by
  rw [Lagrange.basis, Polynomial.eval_prod]
  refine Finset.prod_congr rfl fun j hj => ?_
  have hinv : (v j - v i)⁻¹ = -((v i - v j)⁻¹) := by
    rw [← neg_sub (v i) (v j), inv_neg]
  simp only [Lagrange.basisDivisor, Polynomial.eval_mul, Polynomial.eval_sub,
    Polynomial.eval_C, Polynomial.eval_X, hinv]
  ring

theorem sum_polyEval_lagBasis (l : List F) (xs : List F) (hnd : xs.Nodup)
    (hlen : l.length ≤ xs.length) :
    ∑ i ∈ Finset.range xs.length, polyEval l (xs.getD i 0) * lagBasisAt0 xs i =
      polyEval l 0 := by
  obtain ⟨P, hdeg, heval⟩ := exists_poly l
  set v : Nat → F := fun i => xs.getD i 0 with hv
  have hvs : Set.InjOn v (Finset.range xs.length) := by
    intro i hi j hj hij
    simp only [Finset.coe_range, Set.mem_Iio] at hi hj
    rw [hv] at hij
    simp only [List.getD_eq_getElem _ _ hi, List.getD_eq_getElem _ _ hj] at hij
    exact (List.Nodup.getElem_inj_iff hnd).mp hij
  have hdeg' : P.degree < (Finset.range xs.length).card := by
    rw [Finset.card_range]
    exact lt_of_lt_of_le hdeg (by exact_mod_cast hlen)
  have hP := Lagrange.eq_interpolate hvs hdeg'
  have h0 : P.eval 0 = ∑ i ∈ Finset.range xs.length,
      P.eval (v i) * (Lagrange.basis (Finset.range xs.length) v i).eval 0 := by
    conv_lhs => rw [hP]
    rw [Lagrange.interpolate_apply, Polynomial.eval_finset_sum]
    exact Finset.sum_congr rfl fun i _ => by rw [Polynomial.eval_mul, Polynomial.eval_C]
  have hterm : ∀ i ∈ Finset.range xs.length,
      polyEval l (xs.getD i 0) * lagBasisAt0 xs i =
        P.eval (v i) * (Lagrange.basis (Finset.range xs.length) v i).eval 0 := by
    intro i _
    rw [heval, eval_basis_at_zero]
    rfl
  rw [Finset.sum_congr rfl hterm, ← h0, heval]

theorem recoverAt0_map (l : List F) (s : F) (xs : List F) (hnd : xs.Nodup)
    (hlen : l.length ≤ xs.length) :
    recoverAt0 (xs.map fun x => (x, polyEval l x * s)) = polyEval l 0 * s := by
  have hfst : ((xs.map fun x => (x, polyEval l x * s)).map Prod.fst) = xs := by
    rw [List.map_map]
    exact List.map_id' xs
  unfold recoverAt0
  rw [hfst, List.length_map]
  have hcong : ∀ i ∈ Finset.range xs.length,
      ((xs.map fun x => (x, polyEval l x * s)).getD i (0, 0)).2 * lagBasisAt0 xs i =
        (polyEval l (xs.getD i 0) * lagBasisAt0 xs i) * s := by
    intro i hi
    have hi' : i < xs.length := Finset.mem_range.mp hi
    have hi'' : i < (xs.map fun x => (x, polyEval l x * s)).length := by simpa using hi'
    rw [List.getD_eq_getElem _ _ hi'', List.getElem_map, List.getD_eq_getElem _ _ hi']
    ring
  rw [Finset.sum_congr rfl hcong, ← Finset.sum_mul, sum_polyEval_lagBasis l xs hnd hlen]

theorem combine_encodes (C : Curve F) (t : Nat) (evals : List (Eval F))
    (h : t ≤ evals.length) :
    combine_ffi C t (some ((evals.map C.encEv).flatten)) false =
      .ret true (some (C.encSig (recoverAt0
        ((evals.take t).map fun e => (((e.index + 1 : Nat) : F), e.value))))) := by
  have hchunks : chunkExact C.psLen ((evals.map C.encEv).flatten) = evals.map C.encEv := by
    refine chunkExact_flatten C.psLen_pos _ ?_
    intro b hb
    obtain ⟨e, _, rfl⟩ := List.mem_map.mp hb
    exact C.encEv_len e
  have hdec : optList C.decEv (evals.map C.encEv) = some evals :=
    optList_enc C.decEv C.encEv evals (fun e _ => C.decEv_encEv e)
  have hnot : ¬ (evals.map C.encEv).length < t := by
    rw [List.length_map]
    omega
  have hnot' : ¬ evals.length < t := by omega
  simp [combine_ffi, hchunks, aggregateSigs, hnot, hnot', hdec]

theorem recoverAt0_dup (v0 v1 : F) :
    recoverAt0 [((1 : F), v0), (1, v0), (2, v1)] = v1 := by
  have e0 : (Finset.range 3).erase 0 = ({1, 2} : Finset Nat) := by decide
  have e1 : (Finset.range 3).erase 1 = ({0, 2} : Finset Nat) := by decide
  have e2 : (Finset.range 3).erase 2 = ({0, 1} : Finset Nat) := by decide
  have h12 : (1 : F) - 2 = -1 := by ring
  simp only [recoverAt0, lagBasisAt0, List.map_cons, List.map_nil, List.length_cons,
    List.length_nil, List.getD_cons_zero, List.getD_cons_succ, e0, e1, e2,
    Finset.sum_range_succ, Finset.sum_range_zero]
  rw [Finset.prod_pair (by omega), Finset.prod_pair (by omega), Finset.prod_pair (by omega)]
  simp only [List.getD_cons_zero, List.getD_cons_succ, sub_self, inv_zero, h12,
    inv_neg_one]
  ring_nf

end Lemmas

section Claims

variable {F : Type} [Field F] [DecidableEq F]

/-- C1: the full threshold pipeline succeeds.  For every `n ≥ t ≥ 1`, every
`t`-subset of the `n` shares (`idxs`, distinct indices below `n`), and valid
seeds, the blind variant — threshold keygen, blind, partially sign the
blinded message with each chosen share, combine with threshold `t`, unblind,
verify against the threshold public key — returns success, and so does the
plain variant without blinding.  The index-cast hypothesis records that the
scalar field's characteristic exceeds `n` (as for the real curve's 253-bit
prime order), and `hr` that the derived blinding factor is invertible. -/
theorem claim_c1 (C : Curve F) (n t : Nat) (seed userSeed msg : Bytes) (idxs : List Nat)
    (ht : 1 ≤ t) (htn : t ≤ n) (hseed : 32 ≤ seed.length) (huser : 32 ≤ userSeed.length)
    (hlen : idxs.length = t) (hmem : ∀ i ∈ idxs, i < n) (hnd : idxs.Nodup)
    (hinj : ∀ i ≤ n, ∀ j ≤ n, ((i : Nat) : F) = ((j : Nat) : F) → i = j)
    (hr : (rngScalar (userSeed.take 32) 0 : F) ≠ 0) :
    pipeBlind C n t seed userSeed msg idxs = some true ∧
    pipePlain C n t seed msg idxs = some true := by
  have hkey := threshold_keygen_done (F := F) n t hseed
  set key := seed.take 32 with hkeydef
  set coeffs : List F := polyFrom key t with hcoeffs
  set hm : F := C.hashMsg msg with hhm
  set r : F := rngScalar (userSeed.take 32) 0 with hrdef
  have hshare : ∀ i ∈ idxs, (keysFrom (F := F) n t key).shares.getD i ⟨0, 0⟩ =
      ⟨i, polyEval coeffs ((i + 1 : Nat) : F)⟩ :=
    fun i hi => keysFrom_shares_getD t key (hmem i hi)
  have hxsnd : (idxs.map (fun i => ((i + 1 : Nat) : F))).Nodup := by
    refine List.Nodup.map_on ?_ hnd
    intro i hi j hj hij
    have h1 : i + 1 ≤ n := by
      have := hmem i hi
      omega
    have h2 : j + 1 ≤ n := by
      have := hmem j hj
      omega
    have := hinj (i + 1) h1 (j + 1) h2 hij
    omega
  have hxlen : coeffs.length ≤ (idxs.map (fun i => ((i + 1 : Nat) : F))).length := by
    rw [hcoeffs, polyFrom_length, List.length_map, hlen]
  constructor
  · simp only [pipeBlind]
    rw [hkey]
    simp only [doneOut, Option.some_bind]
    rw [blind_ok C msg huser]
    simp only [okPair, Option.some_bind]
    have hopt : optList (fun i =>
        okOut (partial_sign_blinded_message_ffi C
          (some ((keysFrom (F := F) n t key).shares.getD i ⟨0, 0⟩))
          (some (C.encSig (r * hm))) false)) idxs =
        some (idxs.map (fun i => C.encEv ⟨i, polyEval coeffs ((i + 1 : Nat) : F) * (r * hm)⟩)) := by
      refine optList_map _ _ idxs ?_
      intro i hi
      rw [hshare i hi, partial_sign_blinded_enc]
      rfl
    rw [hopt]
    simp only [Option.some_bind]
    have hflat : idxs.map (fun i => C.encEv ⟨i, polyEval coeffs ((i + 1 : Nat) : F) * (r * hm)⟩) =
        (idxs.map (fun i => Eval.mk i (polyEval coeffs ((i + 1 : Nat) : F) * (r * hm)))).map
          C.encEv := (List.map_map _ _ _).symm
    rw [hflat,
      combine_encodes C t (idxs.map (fun i => Eval.mk i (polyEval coeffs ((i + 1 : Nat) : F) * (r * hm))))
        (by rw [List.length_map, hlen])]
    simp only [okOut, Option.some_bind]
    rw [List.take_of_length_le (by rw [List.length_map, hlen]), List.map_map]
    have hpts : ((fun e : Eval F => (((e.index + 1 : Nat) : F), e.value)) ∘
        (fun i => Eval.mk i (polyEval coeffs ((i + 1 : Nat) : F) * (r * hm)))) =
        ((fun x : F => (x, polyEval coeffs x * (r * hm))) ∘ (fun i : Nat => ((i + 1 : Nat) : F))) :=
      rfl
    rw [hpts, ← List.map_map, recoverAt0_map coeffs (r * hm) _ hxsnd hxlen]
    rw [unblind_enc C _ hr]
    simp only [okOut, Option.some_bind]
    have hsc : r⁻¹ * (polyEval coeffs 0 * (r * hm)) = polyEval coeffs 0 * hm := by
      field_simp
      ring
    rw [hsc, verify_enc, keysFrom_tpk]
    simp [boolOut]
  · simp only [pipePlain]
    rw [hkey]
    simp only [doneOut, Option.some_bind]
    have hopt : optList (fun i =>
        okOut (partial_sign_ffi C
          (some ((keysFrom (F := F) n t key).shares.getD i ⟨0, 0⟩)) (some msg) false)) idxs =
        some (idxs.map (fun i => C.encEv ⟨i, polyEval coeffs ((i + 1 : Nat) : F) * hm⟩)) := by
      refine optList_map _ _ idxs ?_
      intro i hi
      rw [hshare i hi, partial_sign_enc]
      rfl
    rw [hopt]
    simp only [Option.some_bind]
    have hflat : idxs.map (fun i => C.encEv ⟨i, polyEval coeffs ((i + 1 : Nat) : F) * hm⟩) =
        (idxs.map (fun i => Eval.mk i (polyEval coeffs ((i + 1 : Nat) : F) * hm))).map
          C.encEv := (List.map_map _ _ _).symm
    rw [hflat,
      combine_encodes C t (idxs.map (fun i => Eval.mk i (polyEval coeffs ((i + 1 : Nat) : F) * hm)))
        (by rw [List.length_map, hlen])]
    simp only [okOut, Option.some_bind]
    rw [List.take_of_length_le (by rw [List.length_map, hlen]), List.map_map]
    have hpts : ((fun e : Eval F => (((e.index + 1 : Nat) : F), e.value)) ∘
        (fun i => Eval.mk i (polyEval coeffs ((i + 1 : Nat) : F) * hm))) =
        ((fun x : F => (x, polyEval coeffs x * hm)) ∘ (fun i : Nat => ((i + 1 : Nat) : F))) :=
      rfl
    rw [hpts, ← List.map_map, recoverAt0_map coeffs hm _ hxsnd hxlen]
    rw [verify_enc, keysFrom_tpk]
    simp [boolOut]

/-- C1 witness: the concrete scenario — `n = 5`, `t = 3`, seed 59 × `'a'`,
message `[1,2,3,4,6]`, shares 0, 1, 2 — blind and plain pipelines both
verify. -/
theorem claim_c1_witness :
    pipeBlind mCurve 5 3 scenarioSeed scenarioUserSeed scenarioMsg [0, 1, 2] = some true ∧
    pipePlain mCurve 5 3 scenarioSeed scenarioMsg [0, 1, 2] = some true :=
  claim_c1 mCurve 5 3 scenarioSeed scenarioUserSeed scenarioMsg [0, 1, 2]
    (by decide) (by decide) (by decide) (by decide) (by decide)
    (by decide) (by decide) (by decide) (by decide)

/-- C2: for every threshold `t` and every input buffer that splits into fewer
than `t` partial-signature chunks, `combine` returns `false`
(`NotEnoughShares`) and its output parameter is not written. -/
theorem claim_c2 (C : Curve F) (t : Nat) (buf : Bytes)
    (h : (chunkExact C.psLen buf).length < t) :
    combine_ffi C t (some buf) false = .ret false none := by
  simp [combine_ffi, aggregateSigs, h]

/-- C2 witness: two genuine partial-signature chunks with threshold 3 make
`combine` fail with nothing written. -/
theorem claim_c2_witness :
    combine_ffi mCurve 3 (some (scenarioPsig0 ++ scenarioPsig1)) false = .ret false none :=
  claim_c2 mCurve 3 (scenarioPsig0 ++ scenarioPsig1) (by decide)

/-- C3 counterexample: `threshold_keygen` and `keygen` return no boolean at
all and dereference their pointers with no NULL check — a NULL seed crashes
instead of returning `false` — and `serialize`/`deserialize` return booleans
but also dereference a NULL pointer (despite their doc comments), so the
claim, which asserts this of *every* entry point, is false on the code. -/
theorem claim_c3_counterexample :
    threshold_keygen_ffi (F := ZMod 101) 5 3 none false = .crash ∧
    keygen_ffi (F := ZMod 101) none false = .crash ∧
    deserialize_privkey_ffi mCurve none false = .crash ∧
    serialize_privkey_ffi mCurve none false = .crash :=
  ⟨rfl, rfl, rfl, rfl⟩

/-- C3 amended: the boolean-returning protocol entry points — blind, unblind,
verify, sign, sign_blinded_message, partial_sign,
partial_sign_blinded_message, partial_verify,
partial_verify_blind_signature, combine — detect a NULL required
input/output pointer before any dereference and return `false` with no
output written; `keygen`/`threshold_keygen` (no boolean, no NULL check) and
the serialize/deserialize helpers (boolean but no NULL check) are the
exceptions. -/
theorem claim_c3_amended (C : Curve F) :
    (∀ m s b1 b2, (m = none ∨ s = none ∨ b1 = true ∨ b2 = true) →
      blind_ffi C m s b1 b2 = .ret false (none, none)) ∧
    (∀ b r o, (b = none ∨ r = none ∨ o = true) → unblind_ffi C b r o = .ret false none) ∧
    (∀ p m s, (p = none ∨ m = none ∨ s = none) → verify_ffi C p m s = .ret false ()) ∧
    (∀ k m o, (k = none ∨ m = none ∨ o = true) → sign_ffi C k m o = .ret false none) ∧
    (∀ k m o, (k = none ∨ m = none ∨ o = true) →
      sign_blinded_message_ffi C k m o = .ret false none) ∧
    (∀ sh m o, (sh = none ∨ m = none ∨ o = true) →
      partial_sign_ffi C sh m o = .ret false none) ∧
    (∀ sh m o, (sh = none ∨ m = none ∨ o = true) →
      partial_sign_blinded_message_ffi C sh m o = .ret false none) ∧
    (∀ p m s, (p = none ∨ m = none ∨ s = none) →
      partial_verify_ffi C p m s = .ret false ()) ∧
    (∀ p m s, (p = none ∨ m = none ∨ s = none) →
      partial_verify_blind_signature_ffi C p m s = .ret false ()) ∧
    (∀ t sg o, (sg = none ∨ o = true) → combine_ffi C t sg o = .ret false none) := by
  refine ⟨?_, ?_, ?_, ?_, ?_, ?_, ?_, ?_, ?_, ?_⟩
  · intro m s b1 b2 h
    cases m <;> cases s <;> cases b1 <;> cases b2 <;> simp_all [blind_ffi]
  · intro b r o h
    cases b <;> cases r <;> cases o <;> simp_all [unblind_ffi]
  · intro p m s h
    cases p <;> cases m <;> cases s <;> simp_all [verify_ffi]
  · intro k m o h
    cases k <;> cases m <;> cases o <;> simp_all [sign_ffi]
  · intro k m o h
    cases k <;> cases m <;> cases o <;> simp_all [sign_blinded_message_ffi]
  · intro sh m o h
    cases sh <;> cases m <;> cases o <;> simp_all [partial_sign_ffi]
  · intro sh m o h
    cases sh <;> cases m <;> cases o <;> simp_all [partial_sign_blinded_message_ffi]
  · intro p m s h
    cases p <;> cases m <;> cases s <;> simp_all [partial_verify_ffi]
  · intro p m s h
    cases p <;> cases m <;> cases s <;> simp_all [partial_verify_blind_signature_ffi]
  · intro t sg o h
    cases sg <;> cases o <;> simp_all [combine_ffi]

/-- C3 amended witness: blind with a NULL message returns `false`, both
outputs unwritten. -/
theorem claim_c3_amended_witness :
    blind_ffi mCurve none none false false = .ret false (none, none) :=
  (claim_c3_amended mCurve).1 none none false false (Or.inl rfl)

/-- C4: whenever a boolean-returning entry point with output parameters
(blind, unblind, sign, sign_blinded_message, partial_sign,
partial_sign_blinded_message, combine, serialize, deserialize) returns
`false`, none of its output parameters has been written. -/
theorem claim_c4 (C : Curve F) :
    (∀ m s b1 b2 o, blind_ffi C m s b1 b2 = .ret false o → o = (none, none)) ∧
    (∀ b r v o, unblind_ffi C b r v = .ret false o → o = none) ∧
    (∀ k m v o, sign_ffi C k m v = .ret false o → o = none) ∧
    (∀ k m v o, sign_blinded_message_ffi C k m v = .ret false o → o = none) ∧
    (∀ sh m v o, partial_sign_ffi C sh m v = .ret false o → o = none) ∧
    (∀ sh m v o, partial_sign_blinded_message_ffi C sh m v = .ret false o → o = none) ∧
    (∀ t sg v o, combine_ffi C t sg v = .ret false o → o = none) ∧
    (∀ x v o, serialize_privkey_ffi C x v = .ret false o → o = none) ∧
    (∀ x v o, serialize_pubkey_ffi C x v = .ret false o → o = none) ∧
    (∀ x v o, serialize_sig_ffi C x v = .ret false o → o = none) ∧
    (∀ b v o, deserialize_privkey_ffi C b v = .ret false o → o = none) ∧
    (∀ b v o, deserialize_pubkey_ffi C b v = .ret false o → o = none) ∧
    (∀ b v o, deserialize_sig_ffi C b v = .ret false o → o = none) := by
  refine ⟨?_, ?_, ?_, ?_, ?_, ?_, ?_, ?_, ?_, ?_, ?_, ?_, ?_⟩
  · intro m s b1 b2 o h
    cases m <;> cases s <;> cases b1 <;> cases b2 <;>
      simp only [blind_ffi] at h <;> repeat' split at h
    all_goals simp_all
  · intro b r v o h
    cases b <;> cases r <;> cases v <;>
      simp only [unblind_ffi] at h <;> repeat' split at h
    all_goals simp_all
  · intro k m v o h
    cases k <;> cases m <;> cases v <;> simp_all [sign_ffi]
  · intro k m v o h
    cases k <;> cases m <;> cases v <;>
      simp only [sign_blinded_message_ffi] at h <;> repeat' split at h
    all_goals simp_all
  · intro sh m v o h
    cases sh <;> cases m <;> cases v <;> simp_all [partial_sign_ffi]
  · intro sh m v o h
    cases sh <;> cases m <;> cases v <;>
      simp only [partial_sign_blinded_message_ffi] at h <;> repeat' split at h
    all_goals simp_all
  · intro t sg v o h
    cases sg <;> cases v <;>
      simp only [combine_ffi] at h <;> repeat' split at h
    all_goals simp_all
  · intro x v o h
    cases x <;> cases v <;> simp_all [serialize_privkey_ffi]
  · intro x v o h
    cases x <;> cases v <;> simp_all [serialize_pubkey_ffi]
  · intro x v o h
    cases x <;> cases v <;> simp_all [serialize_sig_ffi]
  · intro b v o h
    cases b <;> simp only [deserialize_privkey_ffi] at h <;> repeat' split at h
    all_goals simp_all
  · intro b v o h
    cases b <;> simp only [deserialize_pubkey_ffi] at h <;> repeat' split at h
    all_goals simp_all
  · intro b v o h
    cases b <;> simp only [deserialize_sig_ffi] at h <;> repeat' split at h
    all_goals simp_all

/-- C4 witness: unblind with the non-invertible token 0 returns `false` with
the output unwritten. -/
theorem claim_c4_witness :
    unblind_ffi mCurve (some [3]) (some (0 : ZMod 101)) false = .ret false none ∧
    (none : Option Bytes) = none :=
  ⟨rfl, (claim_c4 mCurve).2.1 (some [3]) (some 0) false none rfl⟩

/-- C5: `keygen(seed)` fails — `from_slice` panics, the call crashes rather
than completing — exactly when the seed is shorter than 32 bytes; for every
seed of at least 32 bytes it completes with the keypair derived from the
seed's first 32 bytes. -/
theorem claim_c5 (seed : Bytes) :
    (keygen_ffi (F := F) (some seed) false = .crash ↔ seed.length < 32) ∧
    (32 ≤ seed.length →
      keygen_ffi (F := F) (some seed) false = .done (keypairFrom (seed.take 32))) :=
  ⟨keygen_crash_iff seed, fun h => keygen_done h⟩

/-- C5 witness: a 33-byte seed yields a keypair. -/
theorem claim_c5_witness :
    keygen_ffi (F := ZMod 101) (some (List.replicate 33 5)) false =
      .done (keypairFrom ((List.replicate 33 5).take 32)) :=
  (claim_c5 (List.replicate 33 5)).2 (by decide)

/-- C6: for every `n ≥ t ≥ 1` and seed of at least 32 bytes,
`threshold_keygen(n, t, seed)` builds a degree-`(t-1)` polynomial with
exactly `t` coefficients, produces the `n` shares by evaluating it at the
indices `1..=n` (`n` distinct nonzero evaluation points — share slot `i`
holds the evaluation at `i + 1`), and the threshold public key is the
constant term of the coefficientwise commitment of that polynomial. -/
theorem claim_c6 (n t : Nat) (seed : Bytes) (ht : 1 ≤ t) (htn : t ≤ n)
    (hseed : 32 ≤ seed.length) :
    ∃ K : Keys F, threshold_keygen_ffi n t (some seed) false = .done K ∧
      K.polynomial = (polyFrom (seed.take 32) t).map gexp ∧
      K.polynomial.length = t ∧
      K.shares = (List.range n).map
        (fun i => Eval.mk i (polyEval (polyFrom (seed.take 32) t) ((i + 1 : Nat) : F))) ∧
      K.shares.length = n ∧
      ((List.range n).map (fun i => i + 1)).Nodup ∧
      (∀ x ∈ (List.range n).map (fun i => i + 1), x ≠ 0 ∧ 1 ≤ x ∧ x ≤ n) ∧
      K.threshold_public_key = gexp ((polyFrom (seed.take 32) t).headD 0) := by
  refine ⟨keysFrom n t (seed.take 32), threshold_keygen_done n t hseed, rfl, ?_, rfl, ?_,
    ?_, ?_, ?_⟩
  · simp [keysFrom, polyFrom]
  · simp [keysFrom]
  · exact List.Nodup.map (fun a b hab => by omega) (List.nodup_range n)
  · intro x hx
    obtain ⟨i, hi, rfl⟩ := List.mem_map.mp hx
    have := List.mem_range.mp hi
    omega
  · rcases hc : (polyFrom (seed.take 32) t : List F) with _ | ⟨c, cs⟩
    · simp [keysFrom, hc, gexp]
    · simp [keysFrom, hc]

/-- C6 witness: the concrete scenario's keys have the claimed shape. -/
theorem claim_c6_witness :
    ∃ K : Keys (ZMod 101), threshold_keygen_ffi 5 3 (some scenarioSeed) false = .done K ∧
      K.polynomial = (polyFrom (scenarioSeed.take 32) 3).map gexp ∧
      K.polynomial.length = 3 ∧
      K.shares = (List.range 5).map
        (fun i => Eval.mk i
          (polyEval (polyFrom (scenarioSeed.take 32) 3) ((i + 1 : Nat) : ZMod 101))) ∧
      K.shares.length = 5 ∧
      ((List.range 5).map (fun i => i + 1)).Nodup ∧
      (∀ x ∈ (List.range 5).map (fun i => i + 1), x ≠ 0 ∧ 1 ≤ x ∧ x ≤ 5) ∧
      K.threshold_public_key = gexp ((polyFrom (scenarioSeed.take 32) 3).headD 0) :=
  claim_c6 5 3 scenarioSeed (by decide) (by decide) (by decide)

/-- C7: `combine` validates nothing beyond count and decodability — every
buffer of at least `t` decodable chunks is aggregated and reported as
success, whatever its indices or values — and on a concrete input whose
three chunks are genuine partial signatures but carry the duplicate share
indices 0, 0, 1, `combine` returns `true` while the signature it produces
fails verification against the threshold public key and message. -/
theorem claim_c7 :
    (∀ (F : Type) [Field F] [DecidableEq F] (C : Curve F) (t : Nat)
       (evals : List (Eval F)), t ≤ evals.length →
       ∃ out, combine_ffi C t (some ((evals.map C.encEv).flatten)) false =
         .ret true (some out)) ∧
    optList mCurve.decEv (chunkExact mCurve.psLen scenarioDupBuf) =
      some [⟨0, 49⟩, ⟨0, 49⟩, ⟨1, 77⟩] ∧
    combine_ffi mCurve 3 (some scenarioDupBuf) false = .ret true (some [77]) ∧
    verify_ffi mCurve (some scenarioKeys.threshold_public_key) (some scenarioMsg)
      (some [77]) = .ret false () := by
  refine ⟨fun F _ _ C t evals h => ⟨_, combine_encodes C t evals h⟩, by decide, ?_, by decide⟩
  have hbuf : scenarioDupBuf =
      (([⟨0, 49⟩, ⟨0, 49⟩, ⟨1, 77⟩] : List (Eval (ZMod 101))).map mCurve.encEv).flatten := by
    decide
  rw [hbuf, combine_encodes mCurve 3 _ (by decide)]
  have hpts : (([⟨0, 49⟩, ⟨0, 49⟩, ⟨1, 77⟩] : List (Eval (ZMod 101))).take 3).map
      (fun e => (((e.index + 1 : Nat) : ZMod 101), e.value)) =
      [((1 : ZMod 101), (49 : ZMod 101)), (1, 49), (2, 77)] := by
    norm_num [List.take]
  rw [hpts, recoverAt0_dup]
  decide

/-- C7 witness: two decodable chunks with threshold 2 are aggregated and
reported as success. -/
theorem claim_c7_witness :
    ∃ out, combine_ffi mCurve 2
      (some ((([⟨0, 3⟩, ⟨1, 5⟩] : List (Eval (ZMod 101))).map mCurve.encEv).flatten)) false =
      .ret true (some out) :=
  claim_c7.1 (ZMod 101) mCurve 2 [⟨0, 3⟩, ⟨1, 5⟩] (by decide)

/-- C8: serialize then deserialize is the identity on private keys, public
keys and signatures, and the encodings have the fixed widths `PRIVKEY_LEN`,
`PUBKEY_LEN` and `SIGNATURE_LEN`. -/
theorem claim_c8 (C : Curve F) (x : F) :
    ((C.encPriv x).length = C.privLen ∧
      serialize_privkey_ffi C (some x) false = .ret true (some (C.encPriv x)) ∧
      deserialize_privkey_ffi C (some (C.encPriv x)) false = .ret true (some x)) ∧
    ((C.encPub x).length = C.pubLen ∧
      serialize_pubkey_ffi C (some x) false = .ret true (some (C.encPub x)) ∧
      deserialize_pubkey_ffi C (some (C.encPub x)) false = .ret true (some x)) ∧
    ((C.encSig x).length = C.sigLen ∧
      serialize_sig_ffi C (some x) false = .ret true (some (C.encSig x)) ∧
      deserialize_sig_ffi C (some (C.encSig x)) false = .ret true (some x)) := by
  refine ⟨⟨C.encPriv_len x, rfl, ?_⟩, ⟨C.encPub_len x, rfl, ?_⟩, ⟨C.encSig_len x, rfl, ?_⟩⟩
  · have h1 : ¬ (C.encPriv x).length < C.privLen := by
      rw [C.encPriv_len]
      omega
    have h2 : (C.encPriv x).take C.privLen = C.encPriv x :=
      List.take_of_length_le (by rw [C.encPriv_len])
    simp [deserialize_privkey_ffi, h1, h2, C.decPriv_encPriv]
  · have h1 : ¬ (C.encPub x).length < C.pubLen := by
      rw [C.encPub_len]
      omega
    have h2 : (C.encPub x).take C.pubLen = C.encPub x :=
      List.take_of_length_le (by rw [C.encPub_len])
    simp [deserialize_pubkey_ffi, h1, h2, C.decPub_encPub]
  · have h1 : ¬ (C.encSig x).length < C.sigLen := by
      rw [C.encSig_len]
      omega
    have h2 : (C.encSig x).take C.sigLen = C.encSig x :=
      List.take_of_length_le (by rw [C.encSig_len])
    simp [deserialize_sig_ffi, h1, h2, C.decSig_encSig]

/-- C9: the seeded operations are deterministic — two `blind` calls with
identical message and seed produce byte-identical blinded messages and equal
tokens, and two `keygen` calls with identical seeds produce identical
keypairs.  (The embedding is a pure function of the arguments because the
source derives all randomness from the seed argument through `get_rng`.) -/
theorem claim_c9 (C : Curve F) (m1 m2 s1 s2 k1 k2 : Option Bytes)
    (hm : m1 = m2) (hs : s1 = s2) (hk : k1 = k2) :
    blind_ffi C m1 s1 false false = blind_ffi C m2 s2 false false ∧
    keygen_ffi (F := F) k1 false = keygen_ffi (F := F) k2 false := by
  subst hm
  subst hs
  subst hk
  exact ⟨rfl, rfl⟩

/-- C9 witness: determinism at the concrete scenario's inputs. -/
theorem claim_c9_witness :
    blind_ffi mCurve (some scenarioMsg) (some scenarioUserSeed) false false =
      blind_ffi mCurve (some scenarioMsg) (some scenarioUserSeed) false false ∧
    keygen_ffi (F := ZMod 101) (some scenarioSeed) false =
      keygen_ffi (F := ZMod 101) (some scenarioSeed) false :=
  claim_c9 mCurve (some scenarioMsg) (some scenarioMsg) (some scenarioUserSeed)
    (some scenarioUserSeed) (some scenarioSeed) (some scenarioSeed) rfl rfl rfl

/-- C10: every seeded operation — `keygen`, `threshold_keygen`, `blind` —
depends only on the first 32 bytes of its seed: two seeds of length at least
32 that agree on their first 32 bytes produce identical results, all later
bytes silently ignored (`from_slice` copies `bytes[..32]`). -/
theorem claim_c10 (C : Curve F) (n t : Nat) (msg : Bytes) (s1 s2 : Bytes)
    (h1 : 32 ≤ s1.length) (h2 : 32 ≤ s2.length) (hpre : s1.take 32 = s2.take 32) :
    keygen_ffi (F := F) (some s1) false = keygen_ffi (F := F) (some s2) false ∧
    threshold_keygen_ffi (F := F) n t (some s1) false =
      threshold_keygen_ffi (F := F) n t (some s2) false ∧
    blind_ffi C (some msg) (some s1) false false =
      blind_ffi C (some msg) (some s2) false false := by
  refine ⟨?_, ?_, ?_⟩
  · rw [keygen_done h1, keygen_done h2, hpre]
  · rw [threshold_keygen_done n t h1, threshold_keygen_done n t h2, hpre]
  · rw [blind_ok C msg h1, blind_ok C msg h2, hpre]

/-- C10 witness: two 33-byte seeds differing only in their last byte drive
`keygen`, `threshold_keygen` and `blind` to identical results. -/
theorem claim_c10_witness :
    keygen_ffi (F := ZMod 101) (some (List.replicate 32 1 ++ [7])) false =
      keygen_ffi (F := ZMod 101) (some (List.replicate 32 1 ++ [9])) false ∧
    threshold_keygen_ffi (F := ZMod 101) 5 3 (some (List.replicate 32 1 ++ [7])) false =
      threshold_keygen_ffi (F := ZMod 101) 5 3 (some (List.replicate 32 1 ++ [9])) false ∧
    blind_ffi mCurve (some scenarioMsg) (some (List.replicate 32 1 ++ [7])) false false =
      blind_ffi mCurve (some scenarioMsg) (some (List.replicate 32 1 ++ [9])) false false :=
  claim_c10 mCurve 5 3 scenarioMsg (List.replicate 32 1 ++ [7]) (List.replicate 32 1 ++ [9])
    (by decide) (by decide) (by decide)

end Claims

end ThresholdFfi
